import Mathlib

/-!
Verification of the `confi` statistics library: the validated
confidence/significance probability pair, the confidence interval, and
Bartlett's test for homogeneity of variances.

The probability layer (`ConfidenceLevel`, `SignificanceLevel`,
`ConfidenceInterval`) is embedded over an exact model of IEEE floating
point: a rational payload plus a NaN element (`F`).  Comparisons on `F`
follow IEEE semantics: every comparison involving NaN is false.  The
model is exact (no rounding) and collapses the IEEE infinities into
NaN; no claim under verification exercises rounding or overflow.

Bartlett's test is embedded generically over a field `K`, with the
external collaborators (natural log, square root, and the regularized
upper incomplete gamma function backing the statrs chi / chi-squared
distributions) passed in as function parameters.
-/

/-- Exact model of an IEEE floating point number: either NaN or an exact
rational value.  Infinities are collapsed into `nan`; none of the code
under verification produces them on the inputs the claims quantify over. -/
inductive F where
  | nan : F
  | fin : ℚ → F
deriving DecidableEq

namespace F

/-- IEEE `<`: false whenever either operand is NaN. -/
def blt : F → F → Bool
  | .fin a, .fin b => decide (a < b)
  | _, _ => false

/-- IEEE `<=`: false whenever either operand is NaN. -/
def ble : F → F → Bool
  | .fin a, .fin b => decide (a ≤ b)
  | _, _ => false

/-- IEEE `>=`: false whenever either operand is NaN. -/
def bge : F → F → Bool
  | .fin a, .fin b => decide (b ≤ a)
  | _, _ => false

/-- Subtraction, NaN-propagating. -/
def sub : F → F → F
  | .fin a, .fin b => .fin (a - b)
  | _, _ => .nan

/-- Division, NaN-propagating, with the quotient taken exactly (no
rounding).  Division by zero yields `nan` (the model collapses the IEEE
infinities into NaN); no verified claim divides by zero.  Exactness is
faithful for the divisions the interval claims exercise (`half_width`
divides by two, which is exact in binary floating point); the
percentage path, where f64 rounding is observable, is modelled
separately by `F.div64`. -/
def div : F → F → F
  | .fin a, .fin b => if b = 0 then .nan else .fin (a / b)
  | _, _ => .nan

end F

/-- Powers of two as exact rationals, for the binary floating point
model. -/
def pow2 (e : ℤ) : ℚ :=
  (2 : ℚ) ^ e

/-- Rounding a rational to the nearest integer, ties to even. -/
def roundHalfEven (m : ℚ) : ℤ :=
  if m - Int.floor m < 1 / 2 then Int.floor m
  else if 1 / 2 < m - Int.floor m then Int.floor m + 1
  else if Int.floor m % 2 = 0 then Int.floor m else Int.floor m + 1

/-- IEEE-754 double-precision rounding (round to nearest, ties to even)
of an exact rational: the magnitude is scaled by the power of two that
brings it into the mantissa range `[2^52, 2^53)` (its binade exponent
is the floor base-two logarithm `Int.log 2`), rounded half-to-even,
and scaled back.  Valid on the normal range of f64 (no overflow,
underflow or subnormal handling), which covers every value the
verified claims exercise. -/
def roundF64 (q : ℚ) : ℚ :=
  if q = 0 then 0
  else
    (if q < 0 then -1 else 1) *
      ((roundHalfEven (|q| / pow2 (Int.log 2 |q| - 52)) : ℚ) *
        pow2 (Int.log 2 |q| - 52))

/-- Multiplication at double precision: the exact product rounded to
the nearest f64, NaN-propagating. -/
def F.mul64 : F → F → F
  | .fin a, .fin b => .fin (roundF64 (a * b))
  | _, _ => .nan

/-- Division at double precision: the exact quotient rounded to the
nearest f64, NaN-propagating; division by zero yields `nan` as in
`F.div`. -/
def F.div64 : F → F → F
  | .fin a, .fin b => if b = 0 then .nan else .fin (roundF64 (a / b))
  | _, _ => .nan

/-- The error type of probability-level construction
(`ConfidenceError` in `src/error.rs`); `Value` carries the offending
level, mirroring `ConfidenceError::Value(level.to_f64())`. -/
inductive ConfidenceError where
  | Value : F → ConfidenceError
deriving DecidableEq

/-- The degree of confidence associated with a value to be computed
(tuple struct `ConfidenceLevel<T>(T)` in `src/confidence/mod.rs`). -/
structure ConfidenceLevel (T : Type) where
  val : T
deriving DecidableEq

/-- The significance level, expressed as a fraction (tuple struct
`SignificanceLevel<T>(T)` in `src/significance.rs`). -/
structure SignificanceLevel (T : Type) where
  val : T
deriving DecidableEq

namespace ConfidenceLevel

/-- `ConfidenceLevel::fractional`: rejects the level when `level < 0`
or `level > 1` (IEEE comparisons, hence both false on NaN). -/
def fractional (level : F) : Except ConfidenceError (ConfidenceLevel F) :=
  if level.blt (F.fin 0) || (F.fin 1).blt level then
    .error (.Value level)
  else
    .ok ⟨level⟩

/-- `ConfidenceLevel::percentage`: divides by 100, then applies the
same check as `fractional`. -/
def percentage (level : F) : Except ConfidenceError (ConfidenceLevel F) :=
  let level := level.div (F.fin 100)
  if level.blt (F.fin 0) || (F.fin 1).blt level then
    .error (.Value level)
  else
    .ok ⟨level⟩

/-- `ConfidenceLevel::percentage` at `T = f64`, with the division
`level / T::from_f64(100.0)` performed at double precision (IEEE
round-to-nearest-even, `F.div64`) rather than exactly; the validation
is unchanged. -/
def percentage64 (level : F) : Except ConfidenceError (ConfidenceLevel F) :=
  let level := level.div64 (F.fin 100)
  if level.blt (F.fin 0) || (F.fin 1).blt level then
    .error (.Value level)
  else
    .ok ⟨level⟩

/-- `ConfidenceLevel::probability`: the wrapped fraction. -/
def probability (c : ConfidenceLevel F) : F :=
  c.val

/-- `impl From<SignificanceLevel<T>> for ConfidenceLevel<T>`:
`Self(T::one() - significance_level.0)`. -/
def fromSignificance (s : SignificanceLevel F) : ConfidenceLevel F :=
  ⟨(F.fin 1).sub s.val⟩

end ConfidenceLevel

namespace SignificanceLevel

/-- `SignificanceLevel::fractional`: rejects the level when `level < 0`
or `level > 1` (IEEE comparisons, hence both false on NaN). -/
def fractional (level : F) : Except ConfidenceError (SignificanceLevel F) :=
  if level.blt (F.fin 0) || (F.fin 1).blt level then
    .error (.Value level)
  else
    .ok ⟨level⟩

/-- `SignificanceLevel::percentage`: divides by 100, then applies the
same check as `fractional`. -/
def percentage (level : F) : Except ConfidenceError (SignificanceLevel F) :=
  let level := level.div (F.fin 100)
  if level.blt (F.fin 0) || (F.fin 1).blt level then
    .error (.Value level)
  else
    .ok ⟨level⟩

/-- `SignificanceLevel::probability`: the wrapped fraction. -/
def probability (s : SignificanceLevel F) : F :=
  s.val

/-- `impl From<ConfidenceLevel<T>> for SignificanceLevel<T>`:
`Self(T::one() - confidence_level.0)`. -/
def fromConfidence (c : ConfidenceLevel F) : SignificanceLevel F :=
  ⟨(F.fin 1).sub c.val⟩

end SignificanceLevel

/-- The error type of the external statrs distribution constructors. -/
inductive StatsError where
  | BadParams : StatsError
deriving DecidableEq

/-- `SignificanceLevel::num_standard_deviations`, at double precision:
`Normal::new(0.0, 1.0)` cannot fail on these constant parameters, and
the method returns the external provider's inverse CDF evaluated at
`1.0 - significance`.  The standard normal inverse CDF is the external
collaborator, passed as `inverse_cdf`. -/
def SignificanceLevel.num_standard_deviations (inverse_cdf : ℝ → ℝ)
    (s : SignificanceLevel ℝ) : Except StatsError ℝ :=
  .ok (inverse_cdf (1 - s.val))

/-- A confidence interval: an inclusive range together with a
confidence level (`ConfidenceInterval<T>` in
`src/confidence/interval.rs`; `RangeInclusive` is modelled by its
start/end pair). -/
structure ConfidenceInterval where
  range_start : F
  range_end : F
  confidence_level : ConfidenceLevel F
deriving DecidableEq

namespace ConfidenceInterval

/-- `Confidence::new` for `ConfidenceInterval`: stores the range and
level exactly as given; no validation. -/
def new (range_start range_end : F) (confidence_level : ConfidenceLevel F) :
    ConfidenceInterval :=
  ⟨range_start, range_end, confidence_level⟩

/-- `Confidence::width`: `*self.end() - *self.start()`. -/
def width (I : ConfidenceInterval) : F :=
  I.range_end.sub I.range_start

/-- `Confidence::half_width`: `self.width() / T::from(2)`. -/
def half_width (I : ConfidenceInterval) : F :=
  I.width.div (F.fin 2)

/-- `Confidence::contains`: `(val <= *self.end()) && (val >= *self.start())`. -/
def contains (I : ConfidenceInterval) (val : F) : Bool :=
  val.ble I.range_end && val.bge I.range_start

/-- `Confidence::confidence_level`: accessor. -/
def level (I : ConfidenceInterval) : ConfidenceLevel F :=
  I.confidence_level

end ConfidenceInterval

/-- The result of a Bartlett test (`BartlettTestResult<N>` in
`src/tests/bartlett.rs`). -/
structure BartlettTestResult (K : Type) where
  statistic : K
  pvalue : K
deriving DecidableEq

/-- The error type of the Bartlett test (`BartlettTestError`): fewer
than two input groups, or a failure constructing the chi-squared
distribution. -/
inductive BartlettTestError where
  | Input : Nat → BartlettTestError
  | Stats : BartlettTestError
deriving DecidableEq

/-- The mean of a sample, as used inside `ndarray`'s variance. -/
def sampleMean {K : Type} [Field K] (xs : List K) : K :=
  xs.sum / (xs.length : K)

/-- The external `ndarray` collaborator `ArrayBase::var(ddof)` at
`ddof = 1`: the Bessel-corrected sample variance, sum of squared
deviations from the mean divided by `n - 1` (exact arithmetic). -/
def varDdof1 {K : Type} [Field K] (xs : List K) : K :=
  (xs.map (fun x => (x - sampleMean xs) ^ 2)).sum / ((xs.length : K) - 1)

/-- The pooled variance `spsq` of `bartlett_test`:
`(num_samples.mapv(|each| each - one) * &variances).sum() / (total_num_samples - input_count)`. -/
def bartlettSpsq {K : Type} [Field K] (inputs : List (List K)) : K :=
  let input_count : K := (inputs.length : K)
  let num_samples : List K := inputs.map (fun sample => (sample.length : K))
  let total_num_samples : K := num_samples.sum
  let variances : List K := inputs.map varDdof1
  (List.zipWith (fun a b => a * b) (num_samples.map (fun each => each - 1))
      variances).sum / (total_num_samples - input_count)

/-- The numerator `numer` of `bartlett_test`:
`(total_num_samples - input_count) * ln(spsq) - (num_samples.mapv(|each| each - one) * variances.mapv(ln)).sum()`. -/
def bartlettNumer {K : Type} [Field K] (lnF : K → K) (inputs : List (List K)) : K :=
  let input_count : K := (inputs.length : K)
  let num_samples : List K := inputs.map (fun sample => (sample.length : K))
  let total_num_samples : K := num_samples.sum
  let variances : List K := inputs.map varDdof1
  (total_num_samples - input_count) * lnF (bartlettSpsq inputs) -
    (List.zipWith (fun a b => a * b) (num_samples.map (fun each => each - 1))
        (variances.map (fun each => lnF each))).sum

/-- The denominator `denom` of `bartlett_test`:
`one + one / (three * (input_count - one)) * (num_samples.mapv(|each| one / (each - one)).sum() - one / (total_num_samples - input_count))`. -/
def bartlettDenom {K : Type} [Field K] (inputs : List (List K)) : K :=
  let input_count : K := (inputs.length : K)
  let num_samples : List K := inputs.map (fun sample => (sample.length : K))
  let total_num_samples : K := num_samples.sum
  1 + 1 / (3 * (input_count - 1)) *
      ((num_samples.map (fun each => 1 / (each - 1))).sum -
        1 / (total_num_samples - input_count))

/-- The Bartlett statistic `numer / denom` computed by `bartlett_test`. -/
def bartlettStatistic {K : Type} [Field K] (lnF : K → K) (inputs : List (List K)) : K :=
  bartlettNumer lnF inputs / bartlettDenom inputs

/-- The external statrs collaborator `Chi::new(freedom).sf(x)`: the
survival function of the chi distribution, `Q(freedom / 2, x^2 / 2)`
where `Q` is the regularized upper incomplete gamma function (the
parameter of this model). -/
def chi_sf {K : Type} [Field K] (Q : K → K → K) (freedom x : K) : K :=
  Q (freedom / 2) (x ^ 2 / 2)

/-- Modelled from the spec: the survival function (1 - CDF) of a
chi-squared distribution with the given degrees of freedom, evaluated
directly at its argument.  A chi-squared distribution with `k` degrees
of freedom is the gamma distribution with shape `k / 2` and rate
`1 / 2`, so its survival function is `Q(k / 2, x / 2)` with `Q` the
regularized upper incomplete gamma function (the same external
collaborator that backs `chi_sf`). -/
def chi_squared_sf {K : Type} [Field K] (Q : K → K → K) (freedom x : K) : K :=
  Q (freedom / 2) (x / 2)

/-- `bartlett_test`: guards `inputs.len() < 2` with
`BartlettTestError::Input`, constructs the chi distribution with
`input_count - one` degrees of freedom (which can only fail when the
freedom is not positive, an unreachable case behind the first guard,
modelled by the `inputs.length - 1 = 0` branch), and evaluates its
survival function at the square root of the statistic. -/
def bartlett_test {K : Type} [Field K] (lnF sqrtF : K → K) (Q : K → K → K)
    (inputs : List (List K)) : Except BartlettTestError (BartlettTestResult K) :=
  if inputs.length < 2 then
    .error (.Input inputs.length)
  else if inputs.length - 1 = 0 then
    .error .Stats
  else
    let statistic := bartlettStatistic lnF inputs
    let pvalue := chi_sf Q ((inputs.length : K) - 1) (sqrtF statistic)
    .ok ⟨statistic, pvalue⟩

/-- Modelled from the spec, for comparison with `varDdof1`: the
Bessel-corrected sample variance of a group, with denominator `n - 1`. -/
def besselVariance {K : Type} [Field K] (g : List K) : K :=
  (g.map (fun x => (x - g.sum / (g.length : K)) ^ 2)).sum / ((g.length : K) - 1)

/-- Modelled from the spec, for comparison with `bartlettStatistic`:
the closed-form Bartlett statistic
`[(N - k) ln(sp^2) - sum_i (n_i - 1) ln(s_i^2)] /
 [1 + (1 / (3 (k - 1))) (sum_i 1 / (n_i - 1) - 1 / (N - k))]`
with `sp^2 = sum_i (n_i - 1) s_i^2 / (N - k)` and `s_i^2` the
Bessel-corrected sample variance of group `i`. -/
def bartlettStatisticSpec {K : Type} [Field K] (lnF : K → K)
    (groups : List (List K)) : K :=
  let k : K := (groups.length : K)
  let bigN : K := (groups.map (fun g => (g.length : K))).sum
  let spsq : K :=
    (groups.map (fun g => ((g.length : K) - 1) * besselVariance g)).sum / (bigN - k)
  let numer : K :=
    (bigN - k) * lnF spsq -
      (groups.map (fun g => ((g.length : K) - 1) * lnF (besselVariance g))).sum
  let corr : K :=
    1 + (1 / (3 * (k - 1))) *
        ((groups.map (fun g => 1 / ((g.length : K) - 1))).sum - 1 / (bigN - k))
  numer / corr

/-- Claim C2, divergence of the code: both `fractional` constructors
evaluated at NaN return `Ok` wrapping NaN.  The guard
`level < zero || level > one` is false on NaN under IEEE comparison
semantics, so NaN slips through, contradicting the documented error
condition "If the provided value is outside [0, 1], or is NaN". -/
theorem fractional_nan_returns_ok :
    ConfidenceLevel.fractional F.nan = Except.ok ⟨F.nan⟩ ∧
    SignificanceLevel.fractional F.nan = Except.ok ⟨F.nan⟩ :=
  ⟨rfl, rfl⟩

/-- Claim C9, divergence of the code: a NaN obtained through the public
constructor `SignificanceLevel::fractional` flows through the
`From` conversion, so a publicly obtainable `ConfidenceLevel` wraps NaN,
violating the stated invariant that the wrapped value is in [0, 1] and
never NaN. -/
theorem nan_reachable_through_public_interface :
    SignificanceLevel.fractional F.nan = Except.ok ⟨F.nan⟩ ∧
    (ConfidenceLevel.fromSignificance ⟨F.nan⟩).probability = F.nan :=
  ⟨rfl, rfl⟩

/-- Claim C4: with fewer than two groups, `bartlett_test` fails with
`BartlettTestError::Input` carrying the supplied group count. -/
theorem bartlett_test_input_count {K : Type} [Field K] (lnF sqrtF : K → K)
    (Q : K → K → K) (inputs : List (List K)) (h : inputs.length < 2) :
    bartlett_test lnF sqrtF Q inputs = .error (.Input inputs.length) := by
  simp [bartlett_test, h]

/-- Witness for C4: a single group of three samples yields
`Input 1`. -/
theorem bartlett_test_input_count_witness :
    ([[(1 : ℚ), 2, 3]].length < 2) ∧
    bartlett_test (K := ℚ) id id (fun a x => a * x) [[1, 2, 3]] =
      .error (.Input 1) :=
  ⟨by decide,
   bartlett_test_input_count id id (fun a x => a * x) [[1, 2, 3]] (by decide)⟩

/-- Claim C5: converting a confidence level `p` to a significance level
wraps `1 - p`, and converting back wraps `1 - (1 - p)`, which is within
`1e-9` of `p` (in the exact model it is equal). -/
theorem level_conversion_round_trip (p : ℚ) (h0 : 0 ≤ p) (h1 : p ≤ 1) :
    (SignificanceLevel.fromConfidence ⟨F.fin p⟩).val = F.fin (1 - p) ∧
    (ConfidenceLevel.fromSignificance
        (SignificanceLevel.fromConfidence ⟨F.fin p⟩)).probability =
      F.fin (1 - (1 - p)) ∧
    |(1 - (1 - p)) - p| ≤ 1 / 1000000000 := by
  refine ⟨rfl, rfl, ?_⟩
  have h : (1 - (1 - p)) - p = 0 := by ring
  rw [h]
  norm_num

/-- Witness for C5 at `p = 3/4`. -/
theorem level_conversion_round_trip_witness :
    ((0 : ℚ) ≤ 3 / 4) ∧ ((3 : ℚ) / 4 ≤ 1) ∧
    ((SignificanceLevel.fromConfidence ⟨F.fin (3 / 4)⟩).val = F.fin (1 - 3 / 4) ∧
     (ConfidenceLevel.fromSignificance
        (SignificanceLevel.fromConfidence ⟨F.fin (3 / 4)⟩)).probability =
       F.fin (1 - (1 - 3 / 4)) ∧
     |(1 - (1 - (3 : ℚ) / 4)) - 3 / 4| ≤ 1 / 1000000000) :=
  ⟨by norm_num, by norm_num,
   level_conversion_round_trip (3 / 4) (by norm_num) (by norm_num)⟩

/-- Claim C6, amended: `percentage` is `fractional` after division by
100, and in exact (unrounded) arithmetic the two constructors succeed
and agree on `[0, 1]`: `fractional x = percentage (100 * x)` for both
level types.  At double precision the equality of wrapped values can
fail by one unit in the last place, as the accompanying rounding
counterexample shows. -/
theorem percentage_divides_then_validates (x : ℚ) (h0 : 0 ≤ x) (h1 : x ≤ 1) :
    (∀ y : F, ConfidenceLevel.percentage y =
      ConfidenceLevel.fractional (y.div (F.fin 100))) ∧
    (∀ y : F, SignificanceLevel.percentage y =
      SignificanceLevel.fractional (y.div (F.fin 100))) ∧
    ConfidenceLevel.fractional (F.fin x) = .ok ⟨F.fin x⟩ ∧
    ConfidenceLevel.percentage (F.fin (100 * x)) = .ok ⟨F.fin x⟩ ∧
    SignificanceLevel.fractional (F.fin x) = .ok ⟨F.fin x⟩ ∧
    SignificanceLevel.percentage (F.fin (100 * x)) = .ok ⟨F.fin x⟩ := by
  have hx0 : ¬ x < 0 := not_lt.2 h0
  have hx1 : ¬ (1 : ℚ) < x := not_lt.2 h1
  have hdiv : (F.fin (100 * x)).div (F.fin 100) = F.fin x := by
    simp [F.div, mul_div_cancel_left₀ x (by norm_num : (100 : ℚ) ≠ 0)]
  refine ⟨fun y => rfl, fun y => rfl, ?_, ?_, ?_, ?_⟩
  · simp [ConfidenceLevel.fractional, F.blt, hx0, hx1]
  · show ConfidenceLevel.fractional ((F.fin (100 * x)).div (F.fin 100)) = _
    rw [hdiv]
    simp [ConfidenceLevel.fractional, F.blt, hx0, hx1]
  · simp [SignificanceLevel.fractional, F.blt, hx0, hx1]
  · show SignificanceLevel.fractional ((F.fin (100 * x)).div (F.fin 100)) = _
    rw [hdiv]
    simp [SignificanceLevel.fractional, F.blt, hx0, hx1]

/-- Witness for C6 at `x = 1/2`. -/
theorem percentage_divides_then_validates_witness :
    ((0 : ℚ) ≤ 1 / 2) ∧ ((1 : ℚ) / 2 ≤ 1) ∧
    (ConfidenceLevel.fractional (F.fin (1 / 2)) = .ok ⟨F.fin (1 / 2)⟩ ∧
     ConfidenceLevel.percentage (F.fin (100 * (1 / 2))) = .ok ⟨F.fin (1 / 2)⟩ ∧
     SignificanceLevel.fractional (F.fin (1 / 2)) = .ok ⟨F.fin (1 / 2)⟩ ∧
     SignificanceLevel.percentage (F.fin (100 * (1 / 2))) = .ok ⟨F.fin (1 / 2)⟩) :=
  ⟨by norm_num, by norm_num,
   ((percentage_divides_then_validates (1 / 2) (by norm_num)
      (by norm_num)).2.2 : _)⟩

/-- Uniqueness of the floor base-two logarithm over the rationals: if
`2^n ≤ r < 2^(n+1)` then `Int.log 2 r = n`. -/
theorem int_log2_eq (r : ℚ) (n : ℤ) (h1 : (2 : ℚ) ^ n ≤ r)
    (h2 : r < (2 : ℚ) ^ (n + 1)) : Int.log 2 r = n := by
  have hr : 0 < r := lt_of_lt_of_le (by positivity) h1
  have hcast : ((2 : ℕ) : ℚ) = (2 : ℚ) := by norm_num
  have hge : n ≤ Int.log 2 r := by
    have hlog := Int.log_zpow (R := ℚ) (b := 2) (by norm_num) n
    rw [hcast] at hlog
    have hmono := Int.log_mono_right (b := 2)
      (by positivity : (0 : ℚ) < (2 : ℚ) ^ n) h1
    rw [hlog] at hmono
    exact hmono
  have hlt : Int.log 2 r < n + 1 := by
    by_contra hc
    push_neg at hc
    have h3 : (2 : ℚ) ^ (n + 1) ≤ (2 : ℚ) ^ Int.log 2 r :=
      zpow_le_zpow_right₀ (by norm_num) hc
    have h4 : ((2 : ℕ) : ℚ) ^ Int.log 2 r ≤ r :=
      Int.zpow_log_le_self (by norm_num) hr
    rw [hcast] at h4
    linarith
  omega

/-- Evaluation of half-even rounding when the fractional part lies
below one half: the value rounds down to its floor. -/
theorem roundHalfEven_eq_floor (m : ℚ) (f : ℤ) (hf : (f : ℚ) ≤ m ∧ m < f + 1)
    (hr : m - f < 1 / 2) : roundHalfEven m = f := by
  have hfl : Int.floor m = f := Int.floor_eq_iff.2 hf
  simp only [roundHalfEven, hfl]
  rw [if_pos hr]

/-- Evaluation of double rounding on a positive rational from its
binade bounds and its rounded mantissa. -/
theorem roundF64_eval (q : ℚ) (n mant : ℤ) (hq : 0 < q)
    (hn1 : (2 : ℚ) ^ n ≤ q) (hn2 : q < (2 : ℚ) ^ (n + 1))
    (hm : roundHalfEven (q / pow2 (n - 52)) = mant) :
    roundF64 q = (mant : ℚ) * pow2 (n - 52) := by
  have habs : |q| = q := abs_of_pos hq
  simp only [roundF64, habs]
  rw [if_neg hq.ne', if_neg (not_lt.2 hq.le), int_log2_eq q n hn1 hn2, hm,
    one_mul]

/-- The product `100.0 * x` at double precision, for the f64 value
`x = 3802937935871711 / 2^52`: the exact product sits in the binade
`[2^6, 2^7)` and its 53-bit mantissa rounds down. -/
theorem round_step_mul :
    roundF64 ((100 : ℚ) * (3802937935871711 / 4503599627370496)) =
      1485522631199887 / 17592186044416 := by
  have h := roundF64_eval ((100 : ℚ) * (3802937935871711 / 4503599627370496))
    6 5942090524799548 (by norm_num) (by norm_num) (by norm_num)
    (roundHalfEven_eq_floor _ 5942090524799548
      (by constructor <;> norm_num [pow2]) (by norm_num [pow2]))
  rw [h]
  norm_num [pow2]

/-- The quotient of that product by `100.0` at double precision: the
exact quotient sits in the binade `[2^-1, 2^0)` and its 53-bit
mantissa rounds down, landing one unit in the last place below the
original value. -/
theorem round_step_div :
    roundF64 ((1485522631199887 / 17592186044416 : ℚ) / 100) =
      7605875871743421 / 9007199254740992 := by
  have h := roundF64_eval ((1485522631199887 / 17592186044416 : ℚ) / 100)
    (-1) 7605875871743421 (by norm_num) (by norm_num) (by norm_num)
    (roundHalfEven_eq_floor _ 7605875871743421
      (by constructor <;> norm_num [pow2]) (by norm_num [pow2]))
  rw [h]
  norm_num [pow2]

/-- Claim C6, counterexample to exact equality at double precision: for
the f64 value `x = 3802937935871711 / 2^52` (printed
`0.8444218515250481`), `fractional x` wraps `x` itself, but
`percentage (100 * x)` — with the multiplication and the division by
100 each rounded to nearest-even double — wraps the neighbouring
double `7605875871743421 / 2^53`, one unit in the last place below
`x`, so the two wrapped values differ. -/
theorem percentage_rounding_counterexample :
    ConfidenceLevel.fractional
        (F.fin (3802937935871711 / 4503599627370496)) =
      .ok ⟨F.fin (3802937935871711 / 4503599627370496)⟩ ∧
    ConfidenceLevel.percentage64
        ((F.fin 100).mul64 (F.fin (3802937935871711 / 4503599627370496))) =
      .ok ⟨F.fin (7605875871743421 / 9007199254740992)⟩ ∧
    (7605875871743421 / 9007199254740992 : ℚ) ≠
      3802937935871711 / 4503599627370496 := by
  refine ⟨?_, ?_, by norm_num⟩
  · have h1 : ¬ ((3802937935871711 : ℚ) / 4503599627370496 < 0) := by norm_num
    have h2 : ¬ ((1 : ℚ) < 3802937935871711 / 4503599627370496) := by norm_num
    simp [ConfidenceLevel.fractional, F.blt, h1, h2]
  · have hmul : (F.fin 100).mul64 (F.fin (3802937935871711 / 4503599627370496)) =
        F.fin (1485522631199887 / 17592186044416) := by
      show F.fin (roundF64 ((100 : ℚ) * (3802937935871711 / 4503599627370496))) = _
      rw [round_step_mul]
    rw [hmul]
    have hdiv : (F.fin (1485522631199887 / 17592186044416)).div64 (F.fin 100) =
        F.fin (7605875871743421 / 9007199254740992) := by
      show (if (100 : ℚ) = 0 then F.nan
        else F.fin (roundF64 ((1485522631199887 / 17592186044416 : ℚ) / 100))) = _
      rw [if_neg (by norm_num : ¬ (100 : ℚ) = 0), round_step_div]
    have h1 : ¬ ((7605875871743421 : ℚ) / 9007199254740992 < 0) := by norm_num
    have h2 : ¬ ((1 : ℚ) < 7605875871743421 / 9007199254740992) := by norm_num
    simp [ConfidenceLevel.percentage64, hdiv, F.blt, h1, h2]

/-- Claim C7: for an interval built from `[lo, hi]`, `contains v` holds
iff `lo ≤ v ≤ hi` (both bounds inclusive), `width` is `hi - lo`,
`half_width` is `(hi - lo) / 2`, the stored level is returned, and the
concrete interval `[1, 3]` contains `2`, does not contain `0.5`, has
width `2` and half-width `1`. -/
theorem interval_queries (lo hi v : ℚ) (lvl : ConfidenceLevel F) :
    ((ConfidenceInterval.new (F.fin lo) (F.fin hi) lvl).contains (F.fin v) = true ↔
      lo ≤ v ∧ v ≤ hi) ∧
    (ConfidenceInterval.new (F.fin lo) (F.fin hi) lvl).width = F.fin (hi - lo) ∧
    (ConfidenceInterval.new (F.fin lo) (F.fin hi) lvl).half_width =
      F.fin ((hi - lo) / 2) ∧
    (ConfidenceInterval.new (F.fin lo) (F.fin hi) lvl).level = lvl ∧
    (ConfidenceInterval.new (F.fin 1) (F.fin 3) lvl).contains (F.fin 2) = true ∧
    (ConfidenceInterval.new (F.fin 1) (F.fin 3) lvl).contains (F.fin (1 / 2)) =
      false ∧
    (ConfidenceInterval.new (F.fin 1) (F.fin 3) lvl).width = F.fin 2 ∧
    (ConfidenceInterval.new (F.fin 1) (F.fin 3) lvl).half_width = F.fin 1 := by
  refine ⟨?_, rfl, ?_, rfl,
    by norm_num [ConfidenceInterval.new, ConfidenceInterval.contains, F.ble, F.bge],
    by norm_num [ConfidenceInterval.new, ConfidenceInterval.contains, F.ble, F.bge],
    by norm_num [ConfidenceInterval.new, ConfidenceInterval.width, F.sub],
    by norm_num [ConfidenceInterval.new, ConfidenceInterval.half_width,
      ConfidenceInterval.width, F.sub, F.div]⟩
  · simp [ConfidenceInterval.new, ConfidenceInterval.contains, F.ble, F.bge,
      Bool.and_eq_true, decide_eq_true_iff, and_comm]
  · simp [ConfidenceInterval.new, ConfidenceInterval.half_width,
      ConfidenceInterval.width, F.sub, F.div]

/-- Claim C8: `num_standard_deviations` returns the external standard
normal inverse CDF evaluated at `1 - significance`; for any provider
whose inverse CDF actually inverts its CDF on `(0, 1)`, the returned
value `z` satisfies `cdf z = 1 - significance`. -/
theorem num_standard_deviations_inverts_cdf (cdf inverse_cdf : ℝ → ℝ)
    (hinv : ∀ p : ℝ, 0 < p → p < 1 → cdf (inverse_cdf p) = p)
    (s : SignificanceLevel ℝ) (h0 : 0 < s.val) (h1 : s.val < 1) :
    s.num_standard_deviations inverse_cdf = .ok (inverse_cdf (1 - s.val)) ∧
    cdf (inverse_cdf (1 - s.val)) = 1 - s.val :=
  ⟨rfl, hinv _ (by linarith) (by linarith)⟩

/-- Witness for C8 with the identity provider pair at `s = 1/2`. -/
theorem num_standard_deviations_inverts_cdf_witness :
    (∀ p : ℝ, 0 < p → p < 1 → id (id p) = p) ∧
    ((0 : ℝ) < (SignificanceLevel.mk (1 / 2 : ℝ)).val) ∧
    ((SignificanceLevel.mk (1 / 2 : ℝ)).val < 1) ∧
    ((SignificanceLevel.mk (1 / 2 : ℝ)).num_standard_deviations id =
      .ok (id (1 - (SignificanceLevel.mk (1 / 2 : ℝ)).val)) ∧
     id (id (1 - (SignificanceLevel.mk (1 / 2 : ℝ)).val)) =
      1 - (SignificanceLevel.mk (1 / 2 : ℝ)).val) :=
  ⟨fun _ _ _ => rfl, by norm_num, by norm_num,
   num_standard_deviations_inverts_cdf id id (fun _ _ _ => rfl) ⟨1 / 2⟩
     (by norm_num) (by norm_num)⟩

/-- Claim C10: a reversed range is stored without error; such an
interval contains no value (finite or NaN), and its width is the
negative number `hi - lo`. -/
theorem reversed_interval_behavior (lo hi : ℚ) (lvl : ConfidenceLevel F)
    (h : hi < lo) :
    (ConfidenceInterval.new (F.fin lo) (F.fin hi) lvl =
      ⟨F.fin lo, F.fin hi, lvl⟩) ∧
    (∀ v : F,
      (ConfidenceInterval.new (F.fin lo) (F.fin hi) lvl).contains v = false) ∧
    (ConfidenceInterval.new (F.fin lo) (F.fin hi) lvl).width =
      F.fin (hi - lo) ∧
    hi - lo < 0 := by
  refine ⟨rfl, ?_, rfl, by linarith⟩
  intro v
  cases v with
  | nan => rfl
  | fin c =>
      simp only [ConfidenceInterval.new, ConfidenceInterval.contains, F.ble,
        F.bge, Bool.and_eq_false_iff, decide_eq_false_iff_not, not_le]
      by_cases hc : c ≤ hi
      · exact Or.inr (lt_of_le_of_lt hc h)
      · exact Or.inl (not_le.1 hc)

/-- Witness for C10: the reversed interval `[3, 1]`. -/
theorem reversed_interval_behavior_witness :
    ((1 : ℚ) < 3) ∧
    ((ConfidenceInterval.new (F.fin 3) (F.fin 1) ⟨F.fin 1⟩ =
        ⟨F.fin 3, F.fin 1, ⟨F.fin 1⟩⟩) ∧
     (∀ v : F,
        (ConfidenceInterval.new (F.fin 3) (F.fin 1) ⟨F.fin 1⟩).contains v =
          false) ∧
     (ConfidenceInterval.new (F.fin 3) (F.fin 1) ⟨F.fin 1⟩).width =
        F.fin (1 - 3) ∧
     (1 : ℚ) - 3 < 0) :=
  ⟨by norm_num, reversed_interval_behavior 3 1 ⟨F.fin 1⟩ (by norm_num)⟩

/-- Zipping two maps of the same list pointwise is a single map. -/
theorem zipWith_map_same {α β γ δ : Type} (h : β → γ → δ) (f : α → β) (g : α → γ) :
    ∀ l : List α, List.zipWith h (l.map f) (l.map g) = l.map (fun x => h (f x) (g x))
  | [] => rfl
  | x :: l => by simp [zipWith_map_same h f g l]

/-- Claim C3: the Bartlett statistic computed by `bartlett_test` equals
the closed-form expression of the specification. -/
theorem bartlett_statistic_matches_spec {K : Type} [Field K] (lnF : K → K)
    (inputs : List (List K)) (hk : 2 ≤ inputs.length)
    (hn : ∀ g ∈ inputs, 2 ≤ g.length) :
    bartlettStatistic lnF inputs = bartlettStatisticSpec lnF inputs := by
  simp only [bartlettStatistic, bartlettStatisticSpec, bartlettNumer,
    bartlettSpsq, bartlettDenom, varDdof1, besselVariance, sampleMean,
    List.map_map, Function.comp_def, zipWith_map_same]

/-- Witness for C3: two groups of two samples each, with the identity
in place of the external natural log. -/
theorem bartlett_statistic_matches_spec_witness :
    (2 ≤ ([[(0 : ℚ), 2], [0, 4]] : List (List ℚ)).length) ∧
    (∀ g ∈ ([[(0 : ℚ), 2], [0, 4]] : List (List ℚ)), 2 ≤ g.length) ∧
    bartlettStatistic (K := ℚ) id [[0, 2], [0, 4]] =
      bartlettStatisticSpec (K := ℚ) id [[0, 2], [0, 4]] :=
  ⟨by decide, by decide,
   bartlett_statistic_matches_spec id [[0, 2], [0, 4]] (by decide) (by decide)⟩

/-- Two-point weighted concavity of the natural logarithm:
`w1 log x + w2 log y ≤ (w1 + w2) log ((w1 x + w2 y) / (w1 + w2))`. -/
theorem log_concave_pair (w1 w2 x y : ℝ) (hw1 : 0 < w1) (hw2 : 0 < w2)
    (hx : 0 < x) (hy : 0 < y) :
    w1 * Real.log x + w2 * Real.log y ≤
      (w1 + w2) * Real.log ((w1 * x + w2 * y) / (w1 + w2)) := by
  have hw : 0 < w1 + w2 := by linarith
  have ha : (0 : ℝ) ≤ w1 / (w1 + w2) := by positivity
  have hb : (0 : ℝ) ≤ w2 / (w1 + w2) := by positivity
  have hab : w1 / (w1 + w2) + w2 / (w1 + w2) = 1 := by field_simp
  have hcon := strictConcaveOn_log_Ioi.concaveOn.2 (Set.mem_Ioi.2 hx)
    (Set.mem_Ioi.2 hy) ha hb hab
  simp only [smul_eq_mul] at hcon
  have harg : w1 / (w1 + w2) * x + w2 / (w1 + w2) * y =
      (w1 * x + w2 * y) / (w1 + w2) := by field_simp
  rw [harg] at hcon
  have := mul_le_mul_of_nonneg_left hcon hw.le
  calc w1 * Real.log x + w2 * Real.log y
      = (w1 + w2) * (w1 / (w1 + w2) * Real.log x + w2 / (w1 + w2) * Real.log y) := by
        field_simp
    _ ≤ (w1 + w2) * Real.log ((w1 * x + w2 * y) / (w1 + w2)) := this

/-- Jensen's inequality for the logarithm over a list of positive
weight/value pairs: the weighted sum of logs is at most the total weight
times the log of the weighted mean. -/
theorem weighted_log_le :
    ∀ l : List (ℝ × ℝ), (∀ p ∈ l, 0 < p.1) → (∀ p ∈ l, 0 < p.2) →
      (l.map (fun p => p.1 * Real.log p.2)).sum ≤
        (l.map Prod.fst).sum *
          Real.log ((l.map (fun p => p.1 * p.2)).sum / (l.map Prod.fst).sum)
  | [], _, _ => by simp
  | (w, v) :: l, hw, hv => by
      have hw0 : 0 < w := hw (w, v) (List.mem_cons_self _ _)
      have hv0 : 0 < v := hv (w, v) (List.mem_cons_self _ _)
      cases l with
      | nil =>
          simp only [List.map_cons, List.map_nil, List.sum_cons, List.sum_nil,
            add_zero]
          rw [mul_comm w v, mul_div_assoc, div_self hw0.ne', mul_one]
      | cons q t =>
          have hwt : ∀ p ∈ q :: t, 0 < p.1 := fun p hp =>
            hw p (List.mem_cons_of_mem _ hp)
          have hvt : ∀ p ∈ q :: t, 0 < p.2 := fun p hp =>
            hv p (List.mem_cons_of_mem _ hp)
          have ih := weighted_log_le (q :: t) hwt hvt
          have hW : 0 < ((q :: t).map Prod.fst).sum := by
            refine List.sum_pos _ (fun x hx => ?_) (by simp)
            obtain ⟨p, hp, rfl⟩ := List.mem_map.1 hx
            exact hwt p hp
          have hS : 0 < ((q :: t).map (fun p => p.1 * p.2)).sum := by
            refine List.sum_pos _ (fun x hx => ?_) (by simp)
            obtain ⟨p, hp, rfl⟩ := List.mem_map.1 hx
            exact mul_pos (hwt p hp) (hvt p hp)
          have hpair := log_concave_pair w (((q :: t).map Prod.fst).sum) v
            ((((q :: t).map (fun p => p.1 * p.2)).sum) /
              (((q :: t).map Prod.fst).sum))
            hw0 hW hv0 (by positivity)
          have harg : w * v + (((q :: t).map Prod.fst).sum) *
              ((((q :: t).map (fun p => p.1 * p.2)).sum) /
                (((q :: t).map Prod.fst).sum)) =
              w * v + (((q :: t).map (fun p => p.1 * p.2)).sum) := by
            rw [mul_div_cancel₀ _ hW.ne']
          rw [harg] at hpair
          simp only [List.map_cons, List.sum_cons]
          calc w * Real.log v + ((q :: t).map (fun p => p.1 * Real.log p.2)).sum
              ≤ w * Real.log v + (((q :: t).map Prod.fst).sum) *
                  Real.log ((((q :: t).map (fun p => p.1 * p.2)).sum) /
                    (((q :: t).map Prod.fst).sum)) := by
                simpa using add_le_add_left ih (w * Real.log v)
            _ ≤ (w + ((q :: t).map Prod.fst).sum) *
                  Real.log ((w * v + ((q :: t).map (fun p => p.1 * p.2)).sum) /
                    (w + ((q :: t).map Prod.fst).sum)) := hpair

/-- Summing `f x - 1` over a list subtracts the length from the sum of
`f`. -/
theorem sum_map_sub_one {α : Type} (f : α → ℝ) :
    ∀ l : List α, (l.map (fun x => f x - 1)).sum = (l.map f).sum - l.length
  | [] => by simp
  | x :: l => by
      simp only [List.map_cons, List.sum_cons, sum_map_sub_one f l,
        List.length_cons, Nat.cast_add, Nat.cast_one]
      ring

/-- The numerator of the Bartlett statistic is nonnegative whenever
every group has at least two samples and positive sample variance:
the pooled variance is the weighted mean of the group variances, and
the logarithm is concave. -/
theorem bartlettNumer_nonneg (inputs : List (List ℝ))
    (hn : ∀ g ∈ inputs, 2 ≤ g.length) (hv : ∀ g ∈ inputs, 0 < varDdof1 g) :
    0 ≤ bartlettNumer Real.log inputs := by
  have key := weighted_log_le
    (inputs.map (fun g => (((g.length : ℝ) - 1), varDdof1 g)))
    (fun p hp => by
      obtain ⟨g, hg, rfl⟩ := List.mem_map.1 hp
      have h2 : (2 : ℝ) ≤ (g.length : ℝ) := by exact_mod_cast hn g hg
      show (0 : ℝ) < (g.length : ℝ) - 1
      linarith)
    (fun p hp => by
      obtain ⟨g, hg, rfl⟩ := List.mem_map.1 hp
      exact hv g hg)
  simp only [List.map_map, Function.comp_def] at key
  have hNk : (inputs.map (fun g => (g.length : ℝ) - 1)).sum =
      (inputs.map (fun g => ((g.length : ℝ)))).sum - (inputs.length : ℝ) :=
    sum_map_sub_one _ inputs
  simp only [bartlettNumer, bartlettSpsq, List.map_map, Function.comp_def,
    zipWith_map_same]
  rw [← hNk]
  exact sub_nonneg.2 key

/-- The correction-factor denominator of the Bartlett statistic is
positive whenever there are at least two groups, each of size at least
two: the bracketed term is nonnegative because the reciprocal of the
pooled degrees of freedom is at most the reciprocal of any single
group's degrees of freedom. -/
theorem bartlettDenom_pos (inputs : List (List ℝ)) (hk : 2 ≤ inputs.length)
    (hn : ∀ g ∈ inputs, 2 ≤ g.length) :
    0 < bartlettDenom inputs := by
  have hkr : (2 : ℝ) ≤ (inputs.length : ℝ) := by exact_mod_cast hk
  have hc : (0 : ℝ) ≤ 1 / (3 * ((inputs.length : ℝ) - 1)) := by
    have : (0 : ℝ) < 3 * ((inputs.length : ℝ) - 1) := by linarith
    positivity
  cases inputs with
  | nil => simp at hk
  | cons g0 rest =>
      have hg0 : g0 ∈ g0 :: rest := List.mem_cons_self _ _
      have h1 : (0 : ℝ) < (g0.length : ℝ) - 1 := by
        have h2 : (2 : ℝ) ≤ (g0.length : ℝ) := by exact_mod_cast hn g0 hg0
        linarith
      have hterms : ∀ x ∈ (g0 :: rest).map (fun g => (g.length : ℝ) - 1),
          0 ≤ x := by
        intro x hx
        obtain ⟨g, hg, rfl⟩ := List.mem_map.1 hx
        have h2 : (2 : ℝ) ≤ (g.length : ℝ) := by exact_mod_cast hn g hg
        linarith
      have hW1 : (g0.length : ℝ) - 1 ≤
          ((g0 :: rest).map (fun g => (g.length : ℝ) - 1)).sum :=
        List.single_le_sum hterms _ (List.mem_map_of_mem _ hg0)
      have hinvW : 1 / ((g0 :: rest).map (fun g => (g.length : ℝ) - 1)).sum ≤
          1 / ((g0.length : ℝ) - 1) :=
        one_div_le_one_div_of_le h1 hW1
      have hinvterms : ∀ x ∈ (g0 :: rest).map (fun g => 1 / ((g.length : ℝ) - 1)),
          0 ≤ x := by
        intro x hx
        obtain ⟨g, hg, rfl⟩ := List.mem_map.1 hx
        have h2 : (2 : ℝ) ≤ (g.length : ℝ) := by exact_mod_cast hn g hg
        have : (0 : ℝ) < (g.length : ℝ) - 1 := by linarith
        positivity
      have hsum : 1 / ((g0.length : ℝ) - 1) ≤
          ((g0 :: rest).map (fun g => 1 / ((g.length : ℝ) - 1))).sum :=
        List.single_le_sum hinvterms _ (List.mem_map_of_mem _ hg0)
      have hNk : ((g0 :: rest).map (fun g => (g.length : ℝ) - 1)).sum =
          ((g0 :: rest).map (fun g => ((g.length : ℝ)))).sum -
            ((g0 :: rest).length : ℝ) :=
        sum_map_sub_one _ (g0 :: rest)
      have hB : (0 : ℝ) ≤
          ((g0 :: rest).map (fun g => 1 / ((g.length : ℝ) - 1))).sum -
            1 / (((g0 :: rest).map (fun g => ((g.length : ℝ)))).sum -
              ((g0 :: rest).length : ℝ)) := by
        rw [← hNk]
        linarith
      simp only [bartlettDenom, List.map_map, Function.comp_def]
      have := mul_nonneg hc hB
      simp only [List.length_cons] at this ⊢
      linarith

/-- The Bartlett statistic is nonnegative on valid inputs. -/
theorem bartlettStatistic_nonneg (inputs : List (List ℝ))
    (hk : 2 ≤ inputs.length) (hn : ∀ g ∈ inputs, 2 ≤ g.length)
    (hv : ∀ g ∈ inputs, 0 < varDdof1 g) :
    0 ≤ bartlettStatistic Real.log inputs :=
  div_nonneg (bartlettNumer_nonneg inputs hn hv)
    (bartlettDenom_pos inputs hk hn).le

/-- Claim C1: on valid inputs (at least two groups, each of size at
least two and positive sample variance), `bartlett_test` succeeds and
its p-value — computed as the statrs chi distribution's survival
function at the square root of the statistic — equals the chi-squared
survival function with `k - 1` degrees of freedom evaluated directly at
the statistic, because the statistic is nonnegative. -/
theorem bartlett_pvalue_chi_squared (Q : ℝ → ℝ → ℝ) (inputs : List (List ℝ))
    (hk : 2 ≤ inputs.length) (hn : ∀ g ∈ inputs, 2 ≤ g.length)
    (hv : ∀ g ∈ inputs, 0 < varDdof1 g) :
    bartlett_test Real.log Real.sqrt Q inputs =
      .ok ⟨bartlettStatistic Real.log inputs,
           chi_squared_sf Q ((inputs.length : ℝ) - 1)
             (bartlettStatistic Real.log inputs)⟩ := by
  have hT : 0 ≤ bartlettStatistic Real.log inputs :=
    bartlettStatistic_nonneg inputs hk hn hv
  have h2 : ¬ inputs.length < 2 := not_lt.2 hk
  have h3 : ¬ (inputs.length - 1 = 0) := by omega
  simp [bartlett_test, h2, h3, chi_sf, chi_squared_sf, Real.sq_sqrt hT]

/-- Witness for C1: two groups of two samples each, both with sample
variance 2, with multiplication standing in for the external
regularized upper incomplete gamma function. -/
theorem bartlett_pvalue_chi_squared_witness :
    (2 ≤ ([[(0 : ℝ), 2], [0, 2]] : List (List ℝ)).length) ∧
    (∀ g ∈ ([[(0 : ℝ), 2], [0, 2]] : List (List ℝ)), 2 ≤ g.length) ∧
    (∀ g ∈ ([[(0 : ℝ), 2], [0, 2]] : List (List ℝ)), 0 < varDdof1 g) ∧
    bartlett_test Real.log Real.sqrt (fun a x => a * x) [[(0 : ℝ), 2], [0, 2]] =
      .ok ⟨bartlettStatistic Real.log [[(0 : ℝ), 2], [0, 2]],
           chi_squared_sf (fun a x => a * x)
             ((([[(0 : ℝ), 2], [0, 2]] : List (List ℝ)).length : ℝ) - 1)
             (bartlettStatistic Real.log [[(0 : ℝ), 2], [0, 2]])⟩ := by
  have hn : ∀ g ∈ ([[(0 : ℝ), 2], [0, 2]] : List (List ℝ)), 2 ≤ g.length := by
    intro g hg
    simp only [List.mem_cons, List.not_mem_nil, or_false] at hg
    rcases hg with rfl | rfl <;> norm_num
  have hv : ∀ g ∈ ([[(0 : ℝ), 2], [0, 2]] : List (List ℝ)), 0 < varDdof1 g := by
    intro g hg
    simp only [List.mem_cons, List.not_mem_nil, or_false] at hg
    rcases hg with rfl | rfl <;>
      norm_num [varDdof1, sampleMean]
  exact ⟨by norm_num, hn, hv,
    bartlett_pvalue_chi_squared (fun a x => a * x) _ (by norm_num) hn hv⟩
